import Mathlib

set_option maxRecDepth 100000

/-! Verification development for the ROMnibus sources: the file hashing
utility (SHA-1 over a plain file or the first entry of a zip archive), the
DAT signature parsers, the JSON signature processor with its two
deduplication stages, the filename-based platform derivation, and the hash
lookup over the games table.

Strings are modelled as lists of characters wherever the Go code scans or
slices them; the SHA-1 machine words are natural numbers reduced modulo
2^32. File systems and archives are modelled as explicit environments
(partial functions from path to contents), since the claims quantify over
file contents rather than over a concrete disk. -/

/-- ASCII lowercasing of one character: maps A-Z to a-z and leaves every
other character unchanged. This is what strings.ToLower and SQLite's
LOWER() do on the ASCII extension and hash strings these programs compare;
lowercasing of non-ASCII letters is outside the modelled character range. -/
def asciiLowerC (c : Char) : Char :=
  if 65 ≤ c.toNat ∧ c.toNat ≤ 90 then Char.ofNat (c.toNat + 32) else c

def asciiLowerL (l : List Char) : List Char := l.map asciiLowerC

def asciiLowerS (s : String) : String := String.mk (asciiLowerL s.data)

/-- unicode.IsSpace, the character test used by strings.TrimSpace: the
Unicode white space property (Latin-1 white space plus the Z* space
characters). -/
def goIsSpace (c : Char) : Bool :=
  decide ((9 ≤ c.toNat ∧ c.toNat ≤ 13) ∨ c.toNat = 32 ∨ c.toNat = 133 ∨
    c.toNat = 160 ∨ c.toNat = 5760 ∨ (8192 ≤ c.toNat ∧ c.toNat ≤ 8202) ∨
    c.toNat = 8232 ∨ c.toNat = 8233 ∨ c.toNat = 8239 ∨ c.toNat = 8287 ∨
    c.toNat = 12288)

/-- strings.TrimSpace: drop leading and trailing white space. -/
def trimSpaceL (l : List Char) : List Char :=
  ((l.dropWhile goIsSpace).reverse.dropWhile goIsSpace).reverse

/-- strings.TrimSuffix: drop the given suffix if the string ends with it. -/
def trimSuffixL (l suf : List Char) : List Char :=
  if suf.isSuffixOf l then l.take (l.length - suf.length) else l

/-- Helper for filepath.Ext: scan the reversed path; stop empty at a path
separator, and return the suffix from the dot (inclusive) at the first dot
found. The accumulator holds, in original order, the characters already
passed over. -/
def extRevAux : List Char → List Char → List Char
  | _, [] => []
  | acc, c :: rest =>
    if c = '/' then [] else if c = '.' then '.' :: acc else extRevAux (c :: acc) rest

/-- filepath.Ext: the suffix beginning at the final dot in the final
slash-separated element of the path; empty if there is no dot. -/
def extL (path : List Char) : List Char := extRevAux [] path.reverse

/-! ## SHA-1 over byte lists

crypto/sha1 as consumed by CalculateFileHash. Bytes are naturals below
256, words are naturals reduced modulo 2^32. -/

def M32 : Nat := 4294967296

/-- Rotate a 32-bit word left by k bits (word given as a Nat below 2^32). -/
def rotl32 (k n : Nat) : Nat := ((n <<< k) % M32) ||| (n >>> (32 - k))

/-- Big-endian byte decomposition of a word into the given number of bytes. -/
def bytesBE (count n : Nat) : List Nat :=
  match count with
  | 0 => []
  | c + 1 => (n >>> (8 * c)) % 256 :: bytesBE c n

/-- SHA-1 padding: append 0x80, zero bytes up to 56 mod 64, then the
64-bit big-endian bit length of the message. -/
def padMessage (msg : List Nat) : List Nat :=
  let z := (120 - ((msg.length + 1) % 64)) % 64
  msg ++ 128 :: (List.replicate z 0 ++ bytesBE 8 (msg.length * 8))

/-- Split into successive 64-byte chunks (fuelled so that it reduces
definitionally; the fuel is the list length, enough for all chunks). -/
def chunks64Aux : Nat → List Nat → List (List Nat)
  | 0, _ => []
  | _, [] => []
  | f + 1, l => l.take 64 :: chunks64Aux f (l.drop 64)

/-- The sixteen big-endian 32-bit words of one 64-byte chunk. -/
def wordsOfChunk : List Nat → List Nat
  | b0 :: b1 :: b2 :: b3 :: rest =>
      (((b0 * 256 + b1) * 256 + b2) * 256 + b3) :: wordsOfChunk rest
  | _ => []

/-- Message-schedule extension: append words until the schedule has 80
entries (fuel 64 starting from the 16 chunk words). -/
def extendTo80 : Nat → List Nat → List Nat
  | 0, w => w
  | f + 1, w =>
    let n := w.length
    extendTo80 f (w ++ [rotl32 1 ((((w.getD (n - 3) 0) ^^^ (w.getD (n - 8) 0)) ^^^
      (w.getD (n - 14) 0)) ^^^ (w.getD (n - 16) 0))])

def sha1F (i b c d : Nat) : Nat :=
  if i < 20 then (b &&& c) ||| ((b ^^^ 4294967295) &&& d)
  else if i < 40 then (b ^^^ c) ^^^ d
  else if i < 60 then ((b &&& c) ||| (b &&& d)) ||| (c &&& d)
  else (b ^^^ c) ^^^ d

def sha1K (i : Nat) : Nat :=
  if i < 20 then 1518500249 else if i < 40 then 1859775393
  else if i < 60 then 2400959708 else 3395469782

def sha1Rounds (w : List Nat) (st : Nat × Nat × Nat × Nat × Nat) :
    Nat × Nat × Nat × Nat × Nat :=
  (List.range 80).foldl
    (fun st i =>
      match st with
      | (a, b, c, d, e) =>
        ((rotl32 5 a + sha1F i b c d + e + sha1K i + w.getD i 0) % M32,
         a, rotl32 30 b, c, d))
    st

def processChunk (h : Nat × Nat × Nat × Nat × Nat) (chunk : List Nat) :
    Nat × Nat × Nat × Nat × Nat :=
  match h, sha1Rounds (extendTo80 64 (wordsOfChunk chunk)) h with
  | (h0, h1, h2, h3, h4), (a, b, c, d, e) =>
    ((h0 + a) % M32, (h1 + b) % M32, (h2 + c) % M32, (h3 + d) % M32, (h4 + e) % M32)

/-- The 20-byte SHA-1 digest of a byte list. -/
def sha1Bytes (msg : List Nat) : List Nat :=
  match (chunks64Aux (padMessage msg).length (padMessage msg)).foldl processChunk
      (1732584193, 4023233417, 2562383102, 271733878, 3285377520) with
  | (h0, h1, h2, h3, h4) =>
    bytesBE 4 h0 ++ bytesBE 4 h1 ++ bytesBE 4 h2 ++ bytesBE 4 h3 ++ bytesBE 4 h4

/-- One lowercase hexadecimal digit, as produced by the %x format verb. -/
def hexDigit (k : Nat) : Char :=
  if k < 10 then Char.ofNat (48 + k) else Char.ofNat (87 + k)

def byteHex (b : Nat) : List Char := [hexDigit (b / 16 % 16), hexDigit (b % 16)]

/-- The lowercase hexadecimal SHA-1 digest string of a byte list, i.e.
fmt.Sprintf of the digest with the %x verb. -/
def sha1Hex (msg : List Nat) : List Char := ((sha1Bytes msg).map byteHex).flatten

def sha1HexS (msg : List Nat) : String := String.mk (sha1Hex msg)

/-! ## Hash engine (CalculateFileHash / calculateZipHash)

The operating system and archive/zip library are modelled as an explicit
environment: readFile returns the full byte contents of a plain file (none
models an open or read failure), openZip returns the entry list of an
archive that the zip reader accepts (none models an open failure), and a
zip entry's data is its decompressed byte stream (none models a failure to
open or decompress that entry). -/

structure ZipEntry where
  name : List Char
  data : Option (List Nat)
deriving DecidableEq

structure FS where
  readFile : List Char → Option (List Nat)
  openZip : List Char → Option (List ZipEntry)

/-- The error exits of CalculateFileHash / calculateZipHash, one
constructor per fmt.Errorf site (open and read failures on the same handle
are merged into the corresponding open constructor). -/
inductive HashErr
  | fileOpen (name : List Char)
  | zipOpen (name : List Char)
  | zipEmpty (name : List Char)
  | entryOpen (entry : List Char)
deriving DecidableEq

def zipExtL : List Char := ['.', 'z', 'i', 'p']

/-- calculateZipHash: open the archive, fail if it is empty, and hash the
decompressed bytes of its first entry. -/
def calculateZipHash (fs : FS) (filename : List Char) : Except HashErr String :=
  match fs.openZip filename with
  | none => .error (.zipOpen filename)
  | some entries =>
    match entries with
    | [] => .error (.zipEmpty filename)
    | e :: _ =>
      match e.data with
      | none => .error (.entryOpen e.name)
      | some bytes => .ok (sha1HexS bytes)

/-- CalculateFileHash: dispatch on the lowercased filepath.Ext of the
path; zip archives go through calculateZipHash, everything else is hashed
as a plain byte stream. -/
def CalculateFileHash (fs : FS) (filename : List Char) : Except HashErr String :=
  if asciiLowerL (extL filename) = zipExtL then calculateZipHash fs filename
  else
    match fs.readFile filename with
    | none => .error (.fileOpen filename)
    | some bytes => .ok (sha1HexS bytes)

/-! ## Regular-expression matcher

The two parseDAT variants drive one regular expression each. Both patterns
are plain sequences of literals, greedy class repetitions, lazy class
repetitions and one fixed-count class repetition, with capture groups
around single repetitions, so the matcher below works on a token list of
exactly those shapes. Go's regexp (in non-POSIX mode, as used by
regexp.MustCompile) returns the leftmost match, and among matches at the
leftmost start the one a backtracking search finds first: greedy
repetitions try longer candidates first, lazy ones shorter first, exactly
the candidate orders used here. FindAllStringSubmatch then resumes after
the end of each match. -/

/-- One token of the compiled pattern: a literal string, a greedy class
star, a (possibly capturing) greedy class plus, a lazy class star, or a
capturing fixed-count class repetition. -/
inductive Tok
  | lit (l : List Char)
  | starG (p : Char → Bool)
  | plusG (p : Char → Bool) (cap : Bool)
  | starL (p : Char → Bool)
  | repN (p : Char → Bool) (n : Nat)

/-- Candidate lengths for a greedy plus: m, m-1, ..., 1. -/
def candDown1 (m : Nat) : List Nat := ((List.range m).map (fun j => j + 1)).reverse

/-- Candidate lengths for a greedy star: m, m-1, ..., 0. -/
def candDown0 (m : Nat) : List Nat := (List.range (m + 1)).reverse

/-- Candidate lengths for a lazy star: 0, 1, ..., m. -/
def candUp0 (m : Nat) : List Nat := List.range (m + 1)

/-- Match a token sequence against a prefix of the input, backtracking in
first-match order; returns the captures (in group order) and the remaining
input after the match. -/
def mtoks : List Tok → List Char → Option (List (List Char) × List Char)
  | [], s => some ([], s)
  | Tok.lit l :: ts, s =>
    if l.isPrefixOf s then mtoks ts (s.drop l.length) else none
  | Tok.starG p :: ts, s =>
    (candDown0 (s.takeWhile p).length).findSome? (fun k => mtoks ts (s.drop k))
  | Tok.plusG p cap :: ts, s =>
    (candDown1 (s.takeWhile p).length).findSome? (fun k =>
      (mtoks ts (s.drop k)).map (fun pr => (if cap then s.take k :: pr.1 else pr.1, pr.2)))
  | Tok.starL p :: ts, s =>
    (candUp0 (s.takeWhile p).length).findSome? (fun k => mtoks ts (s.drop k))
  | Tok.repN p n :: ts, s =>
    if (s.take n).length = n ∧ (s.take n).all p then
      (mtoks ts (s.drop n)).map (fun pr => (s.take n :: pr.1, pr.2))
    else none

/-- Leftmost match: try the pattern at each start position in turn. -/
def findFirst (toks : List Tok) : List Char → Option (List (List Char) × List Char)
  | [] => mtoks toks []
  | c :: rest =>
    match mtoks toks (c :: rest) with
    | some r => some r
    | none => findFirst toks rest

/-- All successive non-overlapping leftmost matches, resuming after each
match (fuelled; both patterns begin with a non-empty literal, so every
match consumes input and fuel equal to the input length suffices). -/
def findAllAux (toks : List Tok) : Nat → List Char → List (List (List Char))
  | 0, _ => []
  | fuel + 1, s =>
    match findFirst toks s with
    | none => []
    | some (caps, rest) => caps :: findAllAux toks fuel rest

/-- FindAllStringSubmatch: the capture rows of all matches. -/
def findAll (toks : List Tok) (s : List Char) : List (List (List Char)) :=
  findAllAux toks (s.length + 1) s

/-- The white-space class of the regexp escape for spaces in RE2:
tab, newline, form feed, carriage return, and space. -/
def reSpace (c : Char) : Bool :=
  decide (c.toNat = 9 ∨ c.toNat = 10 ∨ c.toNat = 12 ∨ c.toNat = 13 ∨ c.toNat = 32)

/-- The class [a-fA-F0-9] of the sha1 capture. -/
def isHexC (c : Char) : Bool :=
  decide ((48 ≤ c.toNat ∧ c.toNat ≤ 57) ∨ (97 ≤ c.toNat ∧ c.toNat ≤ 102) ∨
    (65 ≤ c.toNat ∧ c.toNat ≤ 70))

def notQuote (c : Char) : Bool := c != '"'

def notBrace (c : Char) : Bool := c != '}'

def notSp (c : Char) : Bool := !(reSpace c)

/-- The pattern of the filename-carrying parseDAT: game, optional space,
open paren, optional space, name, space, a quoted game name (capture 1),
lazily up to rom, open paren, lazily up to name, space, a bare filename
token (capture 2), lazily up to sha1, space, forty hex characters
(capture 3), lazily up to a close paren, optional space, close paren. -/
def patA : List Tok :=
  [Tok.lit ['g', 'a', 'm', 'e'], Tok.starG reSpace, Tok.lit ['('],
   Tok.starG reSpace, Tok.lit ['n', 'a', 'm', 'e'], Tok.plusG reSpace false,
   Tok.lit ['"'], Tok.plusG notQuote true, Tok.lit ['"'],
   Tok.starL notBrace, Tok.lit ['r', 'o', 'm'], Tok.starG reSpace, Tok.lit ['('],
   Tok.starL notBrace, Tok.lit ['n', 'a', 'm', 'e'], Tok.plusG reSpace false,
   Tok.plusG notSp true,
   Tok.starL notBrace, Tok.lit ['s', 'h', 'a', '1'], Tok.plusG reSpace false,
   Tok.repN isHexC 40,
   Tok.starL notBrace, Tok.lit [')'], Tok.starG reSpace, Tok.lit [')']]

/-- The pattern of the filename-less parseDAT variant: as patA but with no
filename token between rom's open paren and the sha1 label. -/
def patB : List Tok :=
  [Tok.lit ['g', 'a', 'm', 'e'], Tok.starG reSpace, Tok.lit ['('],
   Tok.starG reSpace, Tok.lit ['n', 'a', 'm', 'e'], Tok.plusG reSpace false,
   Tok.lit ['"'], Tok.plusG notQuote true, Tok.lit ['"'],
   Tok.starL notBrace, Tok.lit ['r', 'o', 'm'], Tok.starG reSpace, Tok.lit ['('],
   Tok.starL notBrace, Tok.lit ['s', 'h', 'a', '1'], Tok.plusG reSpace false,
   Tok.repN isHexC 40,
   Tok.starL notBrace, Tok.lit [')'], Tok.starG reSpace, Tok.lit [')']]

/-! ## DAT parsing (models.Game and the two parseDAT variants) -/

/-- models.Game as inserted into the games table. The filename-less
program variant never sets Filename; its records carry the zero value. -/
structure Game where
  Name : String
  Filename : String
  Platform : String
  Hash : String
deriving DecidableEq

/-- The per-match body of the filename-carrying parseDAT: guard on the
row length, blank out a filename token that begins with a double quote,
and lowercase the sha1 token. -/
def mkGameA (platform : String) (caps : List (List Char)) : Option Game :=
  match caps with
  | g1 :: g2 :: g3 :: _ =>
    some ⟨String.mk g1,
          if g2.head? = some '"' then "" else String.mk g2,
          platform, asciiLowerS (String.mk g3)⟩
  | _ => none

/-- parseDAT (filename-carrying variant), applied to already-read file
contents: run the pattern over the whole text and build one record per
match. -/
def parseDAT (content platform : String) : List Game :=
  (findAll patA content.data).filterMap (mkGameA platform)

/-- The per-match body of the filename-less parseDAT variant: guard on the
row length and on both captures being non-empty strings. -/
def mkGameB (platform : String) (caps : List (List Char)) : Option Game :=
  match caps with
  | g1 :: g2 :: _ =>
    if String.mk g1 ≠ "" ∧ String.mk g2 ≠ "" then
      some ⟨String.mk g1, "", platform, asciiLowerS (String.mk g2)⟩
    else none
  | _ => none

/-- parseDAT, filename-less variant, applied to already-read contents. -/
def parseDAT2 (content platform : String) : List Game :=
  (findAll patB content.data).filterMap (mkGameB platform)

/-- parseFilename: the platform derived from a DAT file's base name. With
no opening parenthesis, trim a literal ".dat" suffix and surrounding
space; otherwise take the part before the first opening parenthesis,
trimmed (the search for a closing parenthesis in the source changes
nothing: both branches return the same value). -/
def parseFilename (filename : List Char) : List Char :=
  match filename.findIdx? (fun c => c = '(') with
  | none => trimSpaceL (trimSuffixL filename ['.', 'd', 'a', 't'])
  | some i => trimSpaceL (filename.take i)

/-! ## JSON signature processor (ProcessFile, Deduplicate, MergeAndDeduplicate)

The encoding/json library is external; ProcessFile is modelled from the
point where the document has been decoded into the GameFile structure.
The polymorphic ROMs attribute value is carried as a decoded JSON value;
decoding a JSON null into a Go slice or map succeeds and leaves it nil,
which the model reflects by treating null as an empty array or object. -/

inductive JValue
  | null
  | bool (b : Bool)
  | num (n : Int)
  | str (s : String)
  | arr (xs : List JValue)
  | obj (fields : List (String × JValue))

structure ROM where
  Name : String
  Size : Int
  Crc : String
  Md5 : String
  Sha1 : String
  Sha256 : String
deriving DecidableEq

structure GameData where
  Name : String
  Filename : String
  Platform : String
  ROMs : List ROM
deriving DecidableEq

structure SigObj where
  Name : String
  Year : String
  Platform : String
deriving DecidableEq

structure Attr where
  AttributeName : String
  Value : JValue

structure GameFile where
  Id : Int
  ObjectType : String
  Name : String
  SignatureDataObjects : List SigObj
  Attributes : List Attr

/-- json.Unmarshal of a raw value into a slice of interface values:
succeeds exactly on arrays (and on null, yielding the nil slice). -/
def asArray : JValue → Option (List JValue)
  | .arr xs => some xs
  | .null => some []
  | _ => none

/-- json.Unmarshal of a raw value into a map: succeeds exactly on objects
(and on null, yielding the nil map). -/
def asObj : JValue → Option (List (String × JValue))
  | .obj fs => some fs
  | .null => some []
  | _ => none

/-- Go map lookup after JSON decoding: with duplicate keys the later
binding wins, so look the key up in the reversed field list. -/
def objGet (fields : List (String × JValue)) (k : String) : Option JValue :=
  fields.reverse.lookup k

/-- A string-typed field, or the zero value when absent or of another
type (the source's comma-ok type assertion). -/
def objGetStr (fields : List (String × JValue)) (k : String) : String :=
  match objGet fields k with
  | some (.str s) => s
  | _ => ""

/-- A numeric field, or the zero value when absent or of another type.
The source asserts float64 (the JSON number type) and converts to int64;
numbers are carried as integers here. -/
def objGetNum (fields : List (String × JValue)) (k : String) : Int :=
  match objGet fields k with
  | some (.num n) => n
  | _ => 0

/-- The ROM built from one decoded descriptor object, field by field. -/
def romOfObj (fields : List (String × JValue)) : ROM :=
  ⟨objGetStr fields "Name", objGetNum fields "Size", objGetStr fields "Crc",
   objGetStr fields "Md5", objGetStr fields "Sha1", objGetStr fields "Sha256"⟩

/-- Only include ROMs with at least one hash populated. -/
def hasAnyHash (r : ROM) : Bool :=
  r.Crc != "" || r.Md5 != "" || r.Sha1 != "" || r.Sha256 != ""

/-- The ROM descriptors contributed by one ROMs attribute value: an array
of objects (non-object items are skipped by the type assertion), or,
failing that, a single object. -/
def romsOfValue (v : JValue) : List ROM :=
  match asArray v with
  | some items =>
    items.filterMap (fun item =>
      match item with
      | .obj fields =>
        let r := romOfObj fields
        if hasAnyHash r then some r else none
      | _ => none)
  | none =>
    match asObj v with
    | some fields =>
      let r := romOfObj fields
      if hasAnyHash r then [r] else []
    | none => []

/-- The ROM list accumulated over every attribute named ROMs. -/
def collectROMs (attrs : List Attr) : List ROM :=
  attrs.foldl (fun acc a =>
    if a.AttributeName = "ROMs" then acc ++ romsOfValue a.Value else acc) []

/-- First-occurrence deduplication: keep an element when its key has not
been seen, threading the seen-key set (the Go map) as a list. -/
def dedupAux {α β : Type} [DecidableEq β] (key : α → β) : List α → List β → List α
  | [], _ => []
  | x :: xs, seen =>
    if key x ∈ seen then dedupAux key xs seen
    else x :: dedupAux key xs (key x :: seen)

/-- The dedup key of Deduplicate: fmt.Sprintf of the four digest fields
joined by colons. -/
def romKey (r : ROM) : String :=
  r.Crc ++ ":" ++ r.Md5 ++ ":" ++ r.Sha1 ++ ":" ++ r.Sha256

/-- Deduplicate: drop ROMs whose colon-joined digest key was already seen. -/
def Deduplicate (roms : List ROM) : List ROM := dedupAux romKey roms []

/-- The dedup key of MergeAndDeduplicate: name, filename and platform
joined by colons. -/
def gameKey (g : GameData) : String :=
  g.Name ++ ":" ++ g.Filename ++ ":" ++ g.Platform

/-- MergeAndDeduplicate: drop games whose colon-joined key was already
seen. -/
def MergeAndDeduplicate (games : List GameData) : List GameData :=
  dedupAux gameKey games []

/-- The platform read from the first signature descriptor, or empty. -/
def firstSigPlatform (data : GameFile) : String :=
  match data.SignatureDataObjects.head? with
  | some s => s.Platform
  | none => ""

/-- Insert a platform into the set unless already present. The Go code
keeps the set as a map; it is modelled as an insertion-ordered list of its
keys (iteration order over a Go map is unspecified, and no property proved
below depends on the order). -/
def addPlat (ps : List String) (p : String) : List String :=
  if p ∈ ps then ps else ps ++ [p]

/-- The platform set of ProcessFile: the first signature's platform when
non-empty, then every non-empty signature platform. -/
def platformsOf (data : GameFile) : List String :=
  let platform := firstSigPlatform data
  let init := if platform ≠ "" then addPlat [] platform else []
  data.SignatureDataObjects.foldl
    (fun acc s => if s.Platform ≠ "" then addPlat acc s.Platform else acc) init

/-- The deduplicated ROM list a document contributes. -/
def extractROMs (data : GameFile) : List ROM := Deduplicate (collectROMs data.Attributes)

/-- filepath.Ext over a string path. -/
def extS (s : String) : String := String.mk (extL s.data)

/-- strings.TrimSuffix of a path by its own extension. -/
def stripExtS (s : String) : String := String.mk (trimSuffixL s.data (extS s).data)

/-- ProcessFile from the decoded document: build the game from the title,
the source path with its extension stripped, the first signature's
platform and the deduplicated ROM list; with more than one distinct
non-empty platform, emit one copy of the game per platform. -/
def ProcessFile (data : GameFile) (filename : String) : List GameData :=
  let game : GameData :=
    ⟨data.Name, stripExtS filename, firstSigPlatform data, extractROMs data⟩
  let platforms := platformsOf data
  if platforms.length > 1 then
    platforms.map (fun p => ⟨game.Name, game.Filename, p, game.ROMs⟩)
  else [game]

/-! ## Catalog store lookup (FindByHash)

The games table is modelled as its rows in storage order, the handle as an
Option (none models the nil handle). The query compares LOWER(hash) with
LOWER(?) and takes LIMIT 1 in storage order; sql.ErrNoRows becomes the
absent result (ok none). -/

def FindByHash (db : Option (List Game)) (hash : String) : Except String (Option Game) :=
  match db with
  | none => .error "database is not initialized"
  | some rows => .ok (rows.find? (fun g => asciiLowerS g.Hash == asciiLowerS hash))

/-! ## Specification-side definitions

These follow the words of the specification (and of the claims under
scrutiny); the theorems below compare them with the definitions embedded
from the source. -/

/-- The ordered tuple of all four digest fields, the uniqueness key the
specification assigns to Deduplicate. -/
def romTuple (r : ROM) : String × String × String × String :=
  (r.Crc, r.Md5, r.Sha1, r.Sha256)

/-- The (name, filename, platform) key the specification assigns to
MergeAndDeduplicate. -/
def gameTuple (g : GameData) : String × String × String :=
  (g.Name, g.Filename, g.Platform)

/-- First-occurrence deduplication of ROMs keyed on the ordered digest
tuple, order of first appearance preserved. -/
def dedupByTuple (roms : List ROM) : List ROM := dedupAux romTuple roms []

/-- First-occurrence deduplication of games keyed on (name, filename,
platform), order of first appearance preserved. -/
def dedupByGameTuple (games : List GameData) : List GameData :=
  dedupAux gameTuple games []

/-- The distinct non-empty platform strings enumerated by the signature
descriptors, in order of first appearance. -/
def distinctPlatformsSpec (data : GameFile) : List String :=
  dedupAux id ((data.SignatureDataObjects.map SigObj.Platform).filter
    (fun p => decide (p ≠ ""))) []

/-- Modelled from the spec: the platform-derivation contract as the claim
words it — the substring strictly before the first open parenthesis
trimmed of surrounding whitespace, otherwise the filename with its
extension removed, trimmed. -/
def parseFilenameSpec (filename : List Char) : List Char :=
  if '(' ∈ filename then trimSpaceL (filename.takeWhile (fun c => decide (c ≠ '(')))
  else trimSpaceL (trimSuffixL filename (extL filename))

/-- The amended platform-derivation contract: as parseFilenameSpec, but
removing a literal ".dat" suffix (case-sensitively) instead of the
extension. -/
def parseFilenameAmended (filename : List Char) : List Char :=
  if '(' ∈ filename then trimSpaceL (filename.takeWhile (fun c => decide (c ≠ '(')))
  else trimSpaceL (trimSuffixL filename ['.', 'd', 'a', 't'])

/-- A lowercase hexadecimal character. -/
def isLowerHexC (c : Char) : Bool :=
  decide ((48 ≤ c.toNat ∧ c.toNat ≤ 57) ∨ (97 ≤ c.toNat ∧ c.toNat ≤ 102))

/-- A string made of lowercase hexadecimal characters. -/
def IsLowerHexS (s : String) : Prop := s.data.all isLowerHexC = true

/-- The shape invariant of a capture row produced by the matcher: one
entry per capturing token, a non-empty class-respecting string for a
capturing plus, an exact-length class-respecting string for a fixed
repetition. -/
def capsOKb : List Tok → List (List Char) → Bool
  | [], cs => cs.isEmpty
  | Tok.lit _ :: ts, cs => capsOKb ts cs
  | Tok.starG _ :: ts, cs => capsOKb ts cs
  | Tok.starL _ :: ts, cs => capsOKb ts cs
  | Tok.plusG p cap :: ts, cs =>
    if cap then
      match cs with
      | c :: cs' => !c.isEmpty && c.all p && capsOKb ts cs'
      | [] => false
    else capsOKb ts cs
  | Tok.repN p n :: ts, cs =>
    match cs with
    | c :: cs' => (c.length == n) && c.all p && capsOKb ts cs'
    | [] => false

/-- The record the filename-carrying parseDAT builds from a capture row,
as a total function (capture rows of its pattern always have exactly
three entries). -/
def buildA (platform : String) (caps : List (List Char)) : Game :=
  match caps with
  | g1 :: g2 :: g3 :: _ =>
    ⟨String.mk g1, if g2.head? = some '"' then "" else String.mk g2,
     platform, asciiLowerS (String.mk g3)⟩
  | _ => ⟨"", "", platform, ""⟩

/-- A string free of the colon separator used by the dedup keys. -/
def noColonS (s : String) : Prop := ':' ∉ s.data

/-- All four digest fields of a ROM are colon-free. -/
def romColonFree (r : ROM) : Prop :=
  noColonS r.Crc ∧ noColonS r.Md5 ∧ noColonS r.Sha1 ∧ noColonS r.Sha256

/-- Name, filename and platform of a game are colon-free. -/
def gameColonFree (g : GameData) : Prop :=
  noColonS g.Name ∧ noColonS g.Filename ∧ noColonS g.Platform

instance (s : String) : Decidable (noColonS s) := by
  unfold noColonS; exact inferInstance

instance (r : ROM) : Decidable (romColonFree r) := by
  unfold romColonFree noColonS; exact inferInstance

instance (g : GameData) : Decidable (gameColonFree g) := by
  unfold gameColonFree noColonS; exact inferInstance

instance (s : String) : Decidable (IsLowerHexS s) := by
  unfold IsLowerHexS; exact inferInstance

/-- Decidable equality of results, so that concrete runs of the fallible
functions can be checked by evaluation. -/
instance {ε α : Type} [DecidableEq ε] [DecidableEq α] : DecidableEq (Except ε α) :=
  fun a b =>
    match a, b with
    | .error x, .error y =>
      if h : x = y then isTrue (by rw [h])
      else isFalse (by intro hc; cases hc; exact h rfl)
    | .error _, .ok _ => isFalse (by intro hc; cases hc)
    | .ok _, .error _ => isFalse (by intro hc; cases hc)
    | .ok x, .ok y =>
      if h : x = y then isTrue (by rw [h])
      else isFalse (by intro hc; cases hc; exact h rfl)

/-! ## Helper lemmas -/

theorem asciiLowerC_idem (c : Char) : asciiLowerC (asciiLowerC c) = asciiLowerC c := by
  unfold asciiLowerC
  by_cases h : 65 ≤ c.toNat ∧ c.toNat ≤ 90
  · rw [if_pos h]
    have h1 : ¬ (65 ≤ (Char.ofNat (c.toNat + 32)).toNat ∧
        (Char.ofNat (c.toNat + 32)).toNat ≤ 90) := by
      obtain ⟨ha, hb⟩ := h
      set t := c.toNat with ht
      interval_cases t <;> decide
    rw [if_neg h1]
  · rw [if_neg h, if_neg h]

theorem asciiLowerS_idem (s : String) : asciiLowerS (asciiLowerS s) = asciiLowerS s := by
  unfold asciiLowerS asciiLowerL
  simp only [List.map_map]
  exact congrArg String.mk (List.map_congr_left (fun c _ => asciiLowerC_idem c))

theorem isLowerHexC_asciiLowerC (c : Char) (h : isHexC c = true) :
    isLowerHexC (asciiLowerC c) = true := by
  unfold isHexC at h
  rw [decide_eq_true_iff] at h
  unfold asciiLowerC isLowerHexC
  rw [decide_eq_true_iff]
  rcases h with h | h | h
  · rw [if_neg (by omega)]; exact Or.inl h
  · rw [if_neg (by omega)]; exact Or.inr h
  · rw [if_pos (by omega)]
    obtain ⟨ha, hb⟩ := h
    set t := c.toNat with ht
    interval_cases t <;> decide

/-- SHA-1 sanity check against the published digest of the empty message. -/
theorem sha1_vector_empty : sha1HexS [] = "da39a3ee5e6b4b0d3255bfef95601890afd80709" := by
  decide

/-- SHA-1 sanity check against the published digest of "abc". -/
theorem sha1_vector_abc :
    sha1HexS [97, 98, 99] = "a9993e364706816aba3e25717850c26c9cd0d89d" := by
  decide

/-! ## C1: plain file and single-entry archive round-trip -/

/-- C1: for every byte sequence B, hashing a plain (non-zip-extension)
file whose content is B and hashing a zip archive whose single entry
decompresses to B produce the same fingerprint, namely the lowercase
hexadecimal SHA-1 digest of B. -/
theorem calculateFileHash_roundtrip (fs : FS) (B : List Nat) (p q en : List Char)
    (hp : asciiLowerL (extL p) ≠ zipExtL) (hrp : fs.readFile p = some B)
    (hq : asciiLowerL (extL q) = zipExtL)
    (hzq : fs.openZip q = some [⟨en, some B⟩]) :
    CalculateFileHash fs p = Except.ok (sha1HexS B) ∧
    CalculateFileHash fs q = Except.ok (sha1HexS B) := by
  constructor
  · unfold CalculateFileHash
    rw [if_neg hp, hrp]
  · unfold CalculateFileHash
    rw [if_pos hq]
    unfold calculateZipHash
    rw [hzq]

/-- C1 witness: content "abc" as a plain .bin file and as the single
entry of a .zip archive, both hashing to the published digest of "abc". -/
theorem calculateFileHash_roundtrip_witness :
    asciiLowerL (extL "f.bin".data) ≠ zipExtL ∧
    asciiLowerL (extL "f.zip".data) = zipExtL ∧
    CalculateFileHash (FS.mk (fun _ => some [97, 98, 99])
        (fun _ => some [⟨['e'], some [97, 98, 99]⟩])) "f.bin".data =
      Except.ok (sha1HexS [97, 98, 99]) ∧
    CalculateFileHash (FS.mk (fun _ => some [97, 98, 99])
        (fun _ => some [⟨['e'], some [97, 98, 99]⟩])) "f.zip".data =
      Except.ok (sha1HexS [97, 98, 99]) ∧
    sha1HexS [97, 98, 99] = "a9993e364706816aba3e25717850c26c9cd0d89d" := by
  have h := calculateFileHash_roundtrip
    (FS.mk (fun _ => some [97, 98, 99]) (fun _ => some [⟨['e'], some [97, 98, 99]⟩]))
    [97, 98, 99] "f.bin".data "f.zip".data ['e'] (by decide) rfl (by decide) rfl
  exact ⟨by decide, by decide, h.1, h.2, by decide⟩

/-! ## C8: empty archive yields an error, never a digest -/

/-- C8: on a zip-extension path, an archive that opens with zero entries
makes the hashing utility return the empty-archive error; a digest is
returned only when the archive has at least one entry, and it is then the
digest of that first entry's decompressed bytes. -/
theorem calculateZipHash_empty_archive (fs : FS) (q : List Char)
    (hq : asciiLowerL (extL q) = zipExtL) :
    (fs.openZip q = some [] →
      CalculateFileHash fs q = Except.error (HashErr.zipEmpty q)) ∧
    (∀ d, CalculateFileHash fs q = Except.ok d →
      ∃ e es B, fs.openZip q = some (e :: es) ∧ e.data = some B ∧ d = sha1HexS B) := by
  constructor
  · intro h
    unfold CalculateFileHash
    rw [if_pos hq]
    unfold calculateZipHash
    rw [h]
  · intro d hd
    unfold CalculateFileHash at hd
    rw [if_pos hq] at hd
    unfold calculateZipHash at hd
    cases hz : fs.openZip q with
    | none => simp only [hz] at hd; exact Except.noConfusion hd
    | some entries =>
      cases entries with
      | nil => simp only [hz] at hd; exact Except.noConfusion hd
      | cons e es =>
        cases he : e.data with
        | none => simp only [hz, he] at hd; exact Except.noConfusion hd
        | some B =>
          simp only [hz, he, Except.ok.injEq] at hd
          exact ⟨e, es, B, rfl, he, hd.symm⟩

/-- C8 witness: an empty archive at a .zip path errors with the
empty-archive error. -/
theorem calculateZipHash_empty_archive_witness :
    asciiLowerL (extL "z.zip".data) = zipExtL ∧
    CalculateFileHash (FS.mk (fun _ => some []) (fun _ => some [])) "z.zip".data =
      Except.error (HashErr.zipEmpty "z.zip".data) := by
  refine ⟨by decide, ?_⟩
  exact (calculateZipHash_empty_archive
    (FS.mk (fun _ => some []) (fun _ => some [])) "z.zip".data (by decide)).1 rfl

/-! ## C10: the archive dispatch is exactly lowercased extension ".zip" -/

/-- C10: CalculateFileHash treats a path as an archive exactly when its
extension, lowercased, equals ".zip"; with any other extension (.7z,
.rar, and so on) the raw bytes are hashed directly as a plain file, no
matter what the zip reader would have said about the path. -/
theorem calculateFileHash_zip_dispatch :
    (∀ (fs : FS) (p : List Char) (B : List Nat),
      asciiLowerL (extL p) ≠ zipExtL → fs.readFile p = some B →
      CalculateFileHash fs p = Except.ok (sha1HexS B)) ∧
    (∀ (fs : FS) (p : List Char),
      asciiLowerL (extL p) = zipExtL →
      CalculateFileHash fs p = calculateZipHash fs p) := by
  constructor
  · intro fs p B h hB
    unfold CalculateFileHash
    rw [if_neg h, hB]
  · intro fs p h
    unfold CalculateFileHash
    rw [if_pos h]

/-- C10 witness: a .7z path (and an uppercase .RAR path) hash as plain
files even though the zip reader would report an empty archive, while an
uppercase .ZIP path is dispatched to the zip reader. -/
theorem calculateFileHash_zip_dispatch_witness :
    asciiLowerL (extL "a.7z".data) ≠ zipExtL ∧
    asciiLowerL (extL "b.RAR".data) ≠ zipExtL ∧
    asciiLowerL (extL "c.ZIP".data) = zipExtL ∧
    CalculateFileHash (FS.mk (fun _ => some []) (fun _ => some [])) "a.7z".data =
      Except.ok (sha1HexS []) ∧
    CalculateFileHash (FS.mk (fun _ => some []) (fun _ => some [])) "b.RAR".data =
      Except.ok (sha1HexS []) ∧
    CalculateFileHash (FS.mk (fun _ => some []) (fun _ => some [])) "c.ZIP".data =
      calculateZipHash (FS.mk (fun _ => some []) (fun _ => some [])) "c.ZIP".data := by
  refine ⟨by decide, by decide, by decide, ?_, ?_, ?_⟩
  · exact calculateFileHash_zip_dispatch.1 _ _ _ (by decide) rfl
  · exact calculateFileHash_zip_dispatch.1 _ _ _ (by decide) rfl
  · exact calculateFileHash_zip_dispatch.2 _ _ (by decide)

/-! ## C5: FindByHash contract -/

/-- A successful find? returns the first element satisfying the
predicate in list order. -/
theorem find?_first {α : Type} (p : α → Bool) :
    ∀ (l : List α) (a : α), l.find? p = some a →
      ∃ i : Nat, l[i]? = some a ∧ p a = true ∧
        ∀ j : Nat, j < i → ∀ b : α, l[j]? = some b → p b = false := by
  intro l
  induction l with
  | nil => intro a h; simp [List.find?] at h
  | cons x xs ih =>
    intro a h
    by_cases hx : p x = true
    · rw [List.find?_cons_of_pos _ hx] at h
      injection h with h
      subst h
      exact ⟨0, by simp, hx, by omega⟩
    · rw [List.find?_cons_of_neg _ hx] at h
      obtain ⟨i, hi, hpa, hfirst⟩ := ih a h
      refine ⟨i + 1, by simpa using hi, hpa, ?_⟩
      intro j hj b hb
      cases j with
      | zero =>
        simp only [List.getElem?_cons_zero, Option.some.injEq] at hb
        subst hb
        simpa using hx
      | succ j' =>
        rw [List.getElem?_cons_succ] at hb
        exact hfirst j' (by omega) b hb

/-- C5: FindByHash matches stored hashes case-insensitively (lowercasing
the argument cannot change the result), returns the storage-order-first
matching row, reports an absent row as a successful none rather than an
error, and reports an initialization error on a nil handle. -/
theorem findByHash_contract :
    (∀ (db : Option (List Game)) (h : String),
      FindByHash db h = FindByHash db (asciiLowerS h)) ∧
    (∀ (rows : List Game) (h : String) (g : Game),
      FindByHash (some rows) h = Except.ok (some g) →
      ∃ i : Nat, rows[i]? = some g ∧ asciiLowerS g.Hash = asciiLowerS h ∧
        ∀ j : Nat, j < i → ∀ g' : Game, rows[j]? = some g' →
          asciiLowerS g'.Hash ≠ asciiLowerS h) ∧
    (∀ (rows : List Game) (h : String),
      (∀ g ∈ rows, asciiLowerS g.Hash ≠ asciiLowerS h) →
      FindByHash (some rows) h = Except.ok none) ∧
    (∀ h : String, FindByHash none h = Except.error "database is not initialized") := by
  refine ⟨?_, ?_, ?_, ?_⟩
  · intro db h
    cases db with
    | none => rfl
    | some rows =>
      show Except.ok (rows.find? (fun g => asciiLowerS g.Hash == asciiLowerS h)) =
        Except.ok (rows.find? (fun g => asciiLowerS g.Hash == asciiLowerS (asciiLowerS h)))
      have heq : (fun g : Game => asciiLowerS g.Hash == asciiLowerS h) =
          (fun g : Game => asciiLowerS g.Hash == asciiLowerS (asciiLowerS h)) := by
        funext g
        rw [asciiLowerS_idem]
      rw [heq]
  · intro rows h g hfind
    have hfind' : Except.ok (ε := String)
        (rows.find? (fun g => asciiLowerS g.Hash == asciiLowerS h)) =
        Except.ok (some g) := hfind
    simp only [Except.ok.injEq] at hfind'
    obtain ⟨i, hi, hpa, hfirst⟩ := find?_first _ rows g hfind'
    refine ⟨i, hi, by simpa using hpa, ?_⟩
    intro j hj g' hg'
    have hb := hfirst j hj g' hg'
    simpa using hb
  · intro rows h hnone
    show Except.ok (rows.find? (fun g => asciiLowerS g.Hash == asciiLowerS h)) =
      Except.ok none
    have hfn : rows.find? (fun g => asciiLowerS g.Hash == asciiLowerS h) = none := by
      rw [List.find?_eq_none]
      intro g hg
      simpa using hnone g hg
    rw [hfn]
  · intro h
    rfl

/-- C5 witness: a mixed-case stored hash is found from a differently
mixed-case query, the argument may be pre-lowercased without changing the
result, an unmatched query returns the absent result, and the nil handle
errors. -/
theorem findByHash_contract_witness :
    FindByHash (some [Game.mk "n" "f" "p" "AbC1"]) "aBc1" =
      FindByHash (some [Game.mk "n" "f" "p" "AbC1"]) (asciiLowerS "aBc1") ∧
    (∃ i : Nat, [Game.mk "n" "f" "p" "AbC1"][i]? = some (Game.mk "n" "f" "p" "AbC1") ∧
      asciiLowerS (Game.mk "n" "f" "p" "AbC1").Hash = asciiLowerS "aBc1" ∧
      ∀ j : Nat, j < i → ∀ g' : Game,
        [Game.mk "n" "f" "p" "AbC1"][j]? = some g' →
        asciiLowerS g'.Hash ≠ asciiLowerS "aBc1") ∧
    FindByHash (some [Game.mk "n" "f" "p" "AbC1"]) "zz" = Except.ok none ∧
    FindByHash none "x" = Except.error "database is not initialized" := by
  refine ⟨findByHash_contract.1 _ "aBc1", ?_, ?_, findByHash_contract.2.2.2 "x"⟩
  · exact findByHash_contract.2.1 [Game.mk "n" "f" "p" "AbC1"] "aBc1"
      (Game.mk "n" "f" "p" "AbC1") (by decide)
  · exact findByHash_contract.2.2.1 [Game.mk "n" "f" "p" "AbC1"] "zz" (by decide)

/-! ## C2: Deduplicate / MergeAndDeduplicate -/

/-- Splitting at a colon separator is unambiguous when the left parts are
colon-free. -/
theorem colon_append_inj : ∀ (a a' b b' : List Char), ':' ∉ a → ':' ∉ a' →
    a ++ ':' :: b = a' ++ ':' :: b' → a = a' ∧ b = b' := by
  intro a
  induction a with
  | nil =>
    intro a' b b' _ ha' h
    cases a' with
    | nil => simpa using h
    | cons y ys =>
      simp only [List.nil_append, List.cons_append, List.cons.injEq] at h
      exact absurd (h.1 ▸ List.mem_cons_self y ys) ha'
  | cons x xs ih =>
    intro a' b b' ha ha' h
    cases a' with
    | nil =>
      simp only [List.cons_append, List.nil_append, List.cons.injEq] at h
      exact absurd (h.1 ▸ List.mem_cons_self x xs) ha
    | cons y ys =>
      simp only [List.cons_append, List.cons.injEq] at h
      obtain ⟨hxy, hrest⟩ := h
      have hxs : ':' ∉ xs := fun hm => ha (List.mem_cons_of_mem _ hm)
      have hys : ':' ∉ ys := fun hm => ha' (List.mem_cons_of_mem _ hm)
      obtain ⟨h1, h2⟩ := ih ys b b' hxs hys hrest
      exact ⟨by rw [hxy, h1], h2⟩

/-- First-occurrence deduplication is unchanged by replacing the key
function with one that identifies exactly the same elements of the list. -/
theorem dedupAux_key_congr {α β γ : Type} [DecidableEq β] [DecidableEq γ]
    (k1 : α → β) (k2 : α → γ) (P : α → Prop)
    (hk : ∀ x y, P x → P y → (k1 x = k1 y ↔ k2 x = k2 y)) :
    ∀ (l ws : List α), (∀ x ∈ l, P x) → (∀ x ∈ ws, P x) →
      dedupAux k1 l (ws.map k1) = dedupAux k2 l (ws.map k2) := by
  intro l
  induction l with
  | nil => intro ws _ _; rfl
  | cons x xs ih =>
    intro ws hl hws
    have hx : P x := hl x (by simp)
    have hxs : ∀ y ∈ xs, P y := fun y hy => hl y (List.mem_cons_of_mem _ hy)
    have hmem : (k1 x ∈ ws.map k1) ↔ (k2 x ∈ ws.map k2) := by
      simp only [List.mem_map]
      constructor
      · rintro ⟨w, hw, hkw⟩
        exact ⟨w, hw, (hk w x (hws w hw) hx).1 hkw⟩
      · rintro ⟨w, hw, hkw⟩
        exact ⟨w, hw, (hk w x (hws w hw) hx).2 hkw⟩
    by_cases hin : k1 x ∈ ws.map k1
    · simp only [dedupAux, if_pos hin, if_pos (hmem.1 hin)]
      exact ih ws hxs hws
    · simp only [dedupAux, if_neg hin, if_neg (fun hc => hin (hmem.2 hc))]
      have hcons : ∀ y ∈ x :: ws, P y := by
        intro y hy
        rcases List.mem_cons.1 hy with h | h
        · rw [h]; exact hx
        · exact hws y h
      have := ih (x :: ws) hxs hcons
      simp only [List.map_cons] at this
      rw [this]

/-- Two colon-free ROMs get the same Sprintf key exactly when their
digest tuples agree. -/
theorem romKey_eq_iff (r r' : ROM) (hr : romColonFree r) (hr' : romColonFree r') :
    romKey r = romKey r' ↔ romTuple r = romTuple r' := by
  have hcolon : (":" : String).data = [':'] := rfl
  constructor
  · intro h
    have hd : (romKey r).data = (romKey r').data := by rw [h]
    unfold romKey at hd
    simp only [String.data_append, hcolon, List.append_assoc,
      List.singleton_append] at hd
    obtain ⟨h1, hd⟩ := colon_append_inj _ _ _ _ hr.1 hr'.1 hd
    obtain ⟨h2, hd⟩ := colon_append_inj _ _ _ _ hr.2.1 hr'.2.1 hd
    obtain ⟨h3, h4⟩ := colon_append_inj _ _ _ _ hr.2.2.1 hr'.2.2.1 hd
    unfold romTuple
    rw [String.ext h1, String.ext h2, String.ext h3, String.ext h4]
  · intro h
    unfold romTuple at h
    simp only [Prod.mk.injEq] at h
    obtain ⟨h1, h2, h3, h4⟩ := h
    unfold romKey
    rw [h1, h2, h3, h4]

/-- Two colon-free games get the same Sprintf key exactly when their
(name, filename, platform) tuples agree. -/
theorem gameKey_eq_iff (g g' : GameData) (hg : gameColonFree g)
    (hg' : gameColonFree g') : gameKey g = gameKey g' ↔ gameTuple g = gameTuple g' := by
  have hcolon : (":" : String).data = [':'] := rfl
  constructor
  · intro h
    have hd : (gameKey g).data = (gameKey g').data := by rw [h]
    unfold gameKey at hd
    simp only [String.data_append, hcolon, List.append_assoc,
      List.singleton_append] at hd
    obtain ⟨h1, hd⟩ := colon_append_inj _ _ _ _ hg.1 hg'.1 hd
    obtain ⟨h2, h3⟩ := colon_append_inj _ _ _ _ hg.2.1 hg'.2.1 hd
    unfold gameTuple
    rw [String.ext h1, String.ext h2, String.ext h3]
  · intro h
    unfold gameTuple at h
    simp only [Prod.mk.injEq] at h
    obtain ⟨h1, h2, h3⟩ := h
    unfold gameKey
    rw [h1, h2, h3]

/-- C2 counterexample: two ROMs with distinct ordered digest tuples whose
colon-joined keys collide; Deduplicate drops the second one although its
tuple had not occurred before, so it does not keep the first occurrence
of each distinct tuple. -/
theorem deduplicate_tuple_counterexample :
    Deduplicate [ROM.mk "x" 0 "a:" "b" "" "", ROM.mk "y" 0 "a" ":b" "" ""] =
      [ROM.mk "x" 0 "a:" "b" "" ""] ∧
    romTuple (ROM.mk "x" 0 "a:" "b" "" "") ≠ romTuple (ROM.mk "y" 0 "a" ":b" "" "") ∧
    dedupByTuple [ROM.mk "x" 0 "a:" "b" "" "", ROM.mk "y" 0 "a" ":b" "" ""] =
      [ROM.mk "x" 0 "a:" "b" "" "", ROM.mk "y" 0 "a" ":b" "" ""] := by
  refine ⟨by decide, by decide, by decide⟩

/-- C2 amended: when no digest field (for Deduplicate) and no name,
filename or platform (for MergeAndDeduplicate) contains a colon — the
separator Sprintf inserts into the map key — the two functions keep
exactly the first occurrence of each distinct ordered tuple, preserving
order of first appearance; both are plain functions of their input. -/
theorem dedup_first_occurrence_amended :
    (∀ roms : List ROM, (∀ r ∈ roms, romColonFree r) →
      Deduplicate roms = dedupByTuple roms) ∧
    (∀ games : List GameData, (∀ g ∈ games, gameColonFree g) →
      MergeAndDeduplicate games = dedupByGameTuple games) := by
  constructor
  · intro roms hfree
    have h := dedupAux_key_congr romKey romTuple romColonFree romKey_eq_iff
      roms [] hfree (by simp)
    simpa using h
  · intro games hfree
    have h := dedupAux_key_congr gameKey gameTuple gameColonFree gameKey_eq_iff
      games [] hfree (by simp)
    simpa using h

/-- C2 amended witness: colon-free ROM and game lists on which the source
functions keep exactly the first occurrence per distinct tuple, in order. -/
theorem dedup_first_occurrence_amended_witness :
    (∀ r ∈ [ROM.mk "a" 1 "c1" "m1" "s1" "h1", ROM.mk "b" 2 "c1" "m1" "s1" "h1",
        ROM.mk "c" 3 "c2" "" "" ""], romColonFree r) ∧
    Deduplicate [ROM.mk "a" 1 "c1" "m1" "s1" "h1", ROM.mk "b" 2 "c1" "m1" "s1" "h1",
        ROM.mk "c" 3 "c2" "" "" ""] =
      [ROM.mk "a" 1 "c1" "m1" "s1" "h1", ROM.mk "c" 3 "c2" "" "" ""] ∧
    (∀ g ∈ [GameData.mk "n" "f" "p" [], GameData.mk "n" "f" "p" [],
        GameData.mk "n" "f" "q" []], gameColonFree g) ∧
    MergeAndDeduplicate [GameData.mk "n" "f" "p" [], GameData.mk "n" "f" "p" [],
        GameData.mk "n" "f" "q" []] =
      [GameData.mk "n" "f" "p" [], GameData.mk "n" "f" "q" []] := by
  refine ⟨by decide, ?_, by decide, ?_⟩
  · rw [dedup_first_occurrence_amended.1 _ (by decide)]
    decide
  · rw [dedup_first_occurrence_amended.2 _ (by decide)]
    decide

/-! ## C7: parseFilename platform derivation -/

/-- The prefix before the first element satisfying the predicate is the
longest prefix of elements falsifying it. -/
theorem take_findIdx?_takeWhile {α : Type} (p : α → Bool) :
    ∀ (l : List α) (i : Nat), l.findIdx? p = some i →
      l.take i = l.takeWhile (fun c => !(p c)) := by
  intro l
  induction l with
  | nil => intro i h; simp at h
  | cons x xs ih =>
    intro i h
    rw [List.findIdx?_cons] at h
    by_cases hx : p x = true
    · rw [if_pos hx] at h
      injection h with h
      subst h
      simp [List.takeWhile_cons, hx]
    · rw [if_neg hx] at h
      rw [List.findIdx?_succ] at h
      cases hfi : xs.findIdx? p with
      | none => rw [hfi] at h; simp at h
      | some j =>
        rw [hfi] at h
        simp only [Option.map_some'] at h
        injection h with h
        subst h
        have hx' : p x = false := by simpa using hx
        simp [List.take_succ_cons, List.takeWhile_cons, hx', ih j hfi]

/-- parseFilename agrees everywhere with the amended derivation: before
the first open parenthesis when one exists, else the name with a literal
".dat" suffix removed, each trimmed. -/
theorem parseFilename_eq_amendedAux (l : List Char) :
    parseFilename l = parseFilenameAmended l := by
  unfold parseFilename parseFilenameAmended
  cases hfi : l.findIdx? (fun c => decide (c = '(')) with
  | none =>
    have hnotin : '(' ∉ l := by
      rw [List.findIdx?_eq_none_iff] at hfi
      intro hmem
      have := hfi '(' hmem
      simp at this
    rw [if_neg hnotin]
  | some i =>
    have hin : '(' ∈ l := by
      have hsome : (l.findIdx? (fun c => decide (c = '('))).isSome = true := by
        rw [hfi]; rfl
      rw [List.findIdx?_isSome, List.any_eq_true] at hsome
      obtain ⟨c, hc, hpc⟩ := hsome
      simp only [decide_eq_true_eq] at hpc
      subst hpc
      exact hc
    rw [if_pos hin]
    have htake := take_findIdx?_takeWhile (fun c => decide (c = '(')) l i hfi
    show trimSpaceL (l.take i) = trimSpaceL (l.takeWhile (fun c => decide (c ≠ '(')))
    rw [htake]
    have hfun : (fun c : Char => !(fun c => decide (c = '(')) c) =
        (fun c : Char => decide (c ≠ '(')) := by
      funext c
      simp [decide_not]
    rw [hfun]

/-- C7 counterexample: for a filename with no parenthesis whose extension
is not ".dat", parseFilename keeps the extension although the claimed
derivation removes it. -/
theorem parseFilename_extension_counterexample :
    parseFilename "foo.txt".data = "foo.txt".data ∧
    parseFilenameSpec "foo.txt".data = "foo".data ∧
    parseFilename "foo.txt".data ≠ parseFilenameSpec "foo.txt".data := by
  exact ⟨by decide, by decide, by decide⟩

/-- C7 amended: for every filename, parseFilename returns the substring
strictly before the first open parenthesis trimmed of surrounding
whitespace when the filename contains one, and otherwise the filename
with a literal ".dat" suffix (not its extension) removed case-sensitively
and then trimmed. -/
theorem parseFilename_platform_derivation (l : List Char) :
    parseFilename l = parseFilenameAmended l :=
  parseFilename_eq_amendedAux l

/-! ## C3 and C9: ProcessFile platform duplication and platform fields -/

/-- dedupAux only looks at membership in the seen set. -/
theorem dedupAux_seen_ext {α β : Type} [DecidableEq β] (key : α → β) :
    ∀ (l : List α) (s1 s2 : List β), (∀ b, b ∈ s1 ↔ b ∈ s2) →
      dedupAux key l s1 = dedupAux key l s2 := by
  intro l
  induction l with
  | nil => intro s1 s2 _; rfl
  | cons x xs ih =>
    intro s1 s2 hext
    simp only [dedupAux]
    by_cases h1 : key x ∈ s1
    · rw [if_pos h1, if_pos ((hext _).1 h1)]
      exact ih s1 s2 hext
    · rw [if_neg h1, if_neg (fun hc => h1 ((hext _).2 hc))]
      congr 1
      apply ih
      intro b
      simp only [List.mem_cons]
      rw [hext b]

/-- The guarded platform fold of ProcessFile equals appending the first
occurrences of the unseen non-empty platforms. -/
theorem foldl_guardPlat_dedup :
    ∀ (sigs : List SigObj) (acc : List String),
      sigs.foldl (fun acc s => if s.Platform ≠ "" then addPlat acc s.Platform else acc) acc =
      acc ++ dedupAux id ((sigs.map SigObj.Platform).filter (fun p => decide (p ≠ ""))) acc := by
  intro sigs
  induction sigs with
  | nil => intro acc; simp [dedupAux]
  | cons s rest ih =>
    intro acc
    simp only [List.foldl_cons, List.map_cons, List.filter_cons]
    by_cases hp : s.Platform = ""
    · rw [if_neg (by simpa using hp)]
      rw [show decide (s.Platform ≠ "") = false from by simpa using hp]
      simp only [Bool.false_eq_true, if_false]
      exact ih acc
    · rw [if_pos hp]
      rw [show decide (s.Platform ≠ "") = true from by simpa using hp]
      simp only [if_true]
      by_cases hmem : s.Platform ∈ acc
      · rw [show addPlat acc s.Platform = acc from by unfold addPlat; rw [if_pos hmem]]
        rw [ih acc]
        congr 1
        simp only [dedupAux, id_eq]
        rw [if_pos hmem]
      · rw [show addPlat acc s.Platform = acc ++ [s.Platform] from by
          unfold addPlat; rw [if_neg hmem]]
        rw [ih (acc ++ [s.Platform])]
        simp only [dedupAux, id_eq]
        rw [if_neg hmem, List.append_assoc, List.singleton_append]
        congr 2
        apply dedupAux_seen_ext
        intro b
        simp only [List.mem_append, List.mem_cons, List.not_mem_nil, or_false]
        exact or_comm

/-- The platform set ProcessFile builds is exactly the distinct non-empty
platforms of the descriptors in order of first appearance. -/
theorem platformsOf_eq (data : GameFile) :
    platformsOf data = distinctPlatformsSpec data := by
  unfold platformsOf distinctPlatformsSpec
  rw [foldl_guardPlat_dedup]
  cases hs : data.SignatureDataObjects with
  | nil =>
    simp [firstSigPlatform, hs, dedupAux]
  | cons s rest =>
    have hfirst : firstSigPlatform data = s.Platform := by
      unfold firstSigPlatform
      rw [hs]
      rfl
    rw [hfirst]
    simp only [List.map_cons, List.filter_cons]
    by_cases hp : s.Platform = ""
    · rw [if_neg (by simpa using hp)]
      rw [show decide (s.Platform ≠ "") = false from by simpa using hp]
      simp only [Bool.false_eq_true, if_false, List.nil_append]
    · rw [if_pos hp]
      rw [show decide (s.Platform ≠ "") = true from by simpa using hp]
      simp only [if_true]
      have haddp : addPlat [] s.Platform = [s.Platform] := by
        unfold addPlat
        rw [if_neg (by simp)]
        rfl
      rw [haddp]
      simp only [dedupAux, id_eq]
      rw [if_pos (List.mem_singleton.2 rfl), if_neg (List.not_mem_nil s.Platform),
        List.singleton_append]

/-- Everything dedupAux keeps comes from the input list. -/
theorem dedupAux_subset {α β : Type} [DecidableEq β] (key : α → β) :
    ∀ (l : List α) (seen : List β) (x : α), x ∈ dedupAux key l seen → x ∈ l := by
  intro l
  induction l with
  | nil => intro seen x h; simp [dedupAux] at h
  | cons y ys ih =>
    intro seen x h
    simp only [dedupAux] at h
    by_cases hy : key y ∈ seen
    · rw [if_pos hy] at h
      exact List.mem_cons_of_mem _ (ih seen x h)
    · rw [if_neg hy] at h
      rcases List.mem_cons.1 h with h | h
      · rw [h]; exact List.mem_cons_self _ _
      · exact List.mem_cons_of_mem _ (ih _ x h)

/-- dedupAux with the identity key returns a duplicate-free list
disjoint from the seen set. -/
theorem dedupAux_id_nodup :
    ∀ (l seen : List String), (dedupAux id l seen).Nodup ∧
      ∀ x ∈ dedupAux id l seen, x ∉ seen := by
  intro l
  induction l with
  | nil =>
    intro seen
    refine ⟨List.nodup_nil, ?_⟩
    intro x h
    simp [dedupAux] at h
  | cons y ys ih =>
    intro seen
    simp only [dedupAux, id_eq]
    by_cases hy : y ∈ seen
    · rw [if_pos hy]
      exact ih seen
    · rw [if_neg hy]
      obtain ⟨hnd, hmem⟩ := ih (y :: seen)
      refine ⟨?_, ?_⟩
      · rw [List.nodup_cons]
        exact ⟨fun hc => hmem y hc (List.mem_cons_self _ _), hnd⟩
      · intro x hx
        rcases List.mem_cons.1 hx with h | h
        · rw [h]; exact hy
        · exact fun hc => hmem x h (List.mem_cons_of_mem _ hc)

/-- Every platform in the set ProcessFile iterates over is non-empty. -/
theorem platformsOf_ne_empty (data : GameFile) :
    ∀ p ∈ platformsOf data, p ≠ "" := by
  intro p hp
  rw [platformsOf_eq] at hp
  unfold distinctPlatformsSpec at hp
  have hsub := dedupAux_subset id _ [] p hp
  rw [List.mem_filter] at hsub
  simpa using hsub.2

/-- ProcessFile in the multi-platform branch: one copy of the game per
platform in the set. -/
theorem processFile_eq_multi (data : GameFile) (fn : String)
    (h : (platformsOf data).length > 1) :
    ProcessFile data fn = (platformsOf data).map
      (fun p => GameData.mk data.Name (stripExtS fn) p (extractROMs data)) := by
  show (if (platformsOf data).length > 1
      then (platformsOf data).map
        (fun p => GameData.mk data.Name (stripExtS fn) p (extractROMs data))
      else [GameData.mk data.Name (stripExtS fn) (firstSigPlatform data)
        (extractROMs data)]) =
    (platformsOf data).map
      (fun p => GameData.mk data.Name (stripExtS fn) p (extractROMs data))
  rw [if_pos h]

/-- ProcessFile in the single-platform branch: the one game built from
the first signature's platform. -/
theorem processFile_eq_single (data : GameFile) (fn : String)
    (h : ¬ (platformsOf data).length > 1) :
    ProcessFile data fn =
      [GameData.mk data.Name (stripExtS fn) (firstSigPlatform data) (extractROMs data)] := by
  show (if (platformsOf data).length > 1
      then (platformsOf data).map
        (fun p => GameData.mk data.Name (stripExtS fn) p (extractROMs data))
      else [GameData.mk data.Name (stripExtS fn) (firstSigPlatform data)
        (extractROMs data)]) =
    [GameData.mk data.Name (stripExtS fn) (firstSigPlatform data) (extractROMs data)]
  rw [if_neg h]

/-- C3: when the signature descriptors enumerate more than one distinct
non-empty platform, ProcessFile returns exactly one GameData per distinct
platform (in the set's order, duplicate-free), all sharing the document
name, the extension-stripped source filename and the same deduplicated
ROM list, differing only in Platform. -/
theorem processFile_multi_platform (data : GameFile) (fn : String)
    (hn : 1 < (distinctPlatformsSpec data).length) :
    (ProcessFile data fn).length = (distinctPlatformsSpec data).length ∧
    (ProcessFile data fn).map GameData.Platform = distinctPlatformsSpec data ∧
    (distinctPlatformsSpec data).Nodup ∧
    ∀ g ∈ ProcessFile data fn, g.Name = data.Name ∧ g.Filename = stripExtS fn ∧
      g.ROMs = extractROMs data := by
  have hpe := platformsOf_eq data
  have hgt : (platformsOf data).length > 1 := by rw [hpe]; exact hn
  have hPF := processFile_eq_multi data fn hgt
  refine ⟨?_, ?_, ?_, ?_⟩
  · rw [hPF, List.length_map, hpe]
  · rw [hPF, List.map_map]
    have hcomp : (GameData.Platform ∘ fun p =>
        GameData.mk data.Name (stripExtS fn) p (extractROMs data)) = id := by
      funext p
      rfl
    rw [hcomp, List.map_id, hpe]
  · unfold distinctPlatformsSpec
    exact (dedupAux_id_nodup _ []).1
  · intro g hg
    rw [hPF] at hg
    obtain ⟨p, _, hgp⟩ := List.mem_map.1 hg
    rw [← hgp]
    exact ⟨rfl, rfl, rfl⟩

/-- C3 witness: a document whose descriptors carry platforms A and B
yields exactly the two expected entries. -/
theorem processFile_multi_platform_witness :
    1 < (distinctPlatformsSpec (GameFile.mk 0 "" "G"
      [SigObj.mk "" "" "A", SigObj.mk "" "" "B"] [])).length ∧
    ((ProcessFile (GameFile.mk 0 "" "G" [SigObj.mk "" "" "A", SigObj.mk "" "" "B"] [])
        "d.json").length =
      (distinctPlatformsSpec (GameFile.mk 0 "" "G"
        [SigObj.mk "" "" "A", SigObj.mk "" "" "B"] [])).length ∧
    (ProcessFile (GameFile.mk 0 "" "G" [SigObj.mk "" "" "A", SigObj.mk "" "" "B"] [])
        "d.json").map GameData.Platform =
      distinctPlatformsSpec (GameFile.mk 0 "" "G"
        [SigObj.mk "" "" "A", SigObj.mk "" "" "B"] []) ∧
    (distinctPlatformsSpec (GameFile.mk 0 "" "G"
      [SigObj.mk "" "" "A", SigObj.mk "" "" "B"] [])).Nodup ∧
    ∀ g ∈ ProcessFile (GameFile.mk 0 "" "G" [SigObj.mk "" "" "A", SigObj.mk "" "" "B"] [])
        "d.json", g.Name = (GameFile.mk 0 "" "G"
          [SigObj.mk "" "" "A", SigObj.mk "" "" "B"] []).Name ∧
      g.Filename = stripExtS "d.json" ∧
      g.ROMs = extractROMs (GameFile.mk 0 "" "G"
        [SigObj.mk "" "" "A", SigObj.mk "" "" "B"] [])) ∧
    ProcessFile (GameFile.mk 0 "" "G" [SigObj.mk "" "" "A", SigObj.mk "" "" "B"] [])
        "d.json" =
      [GameData.mk "G" "d" "A" [], GameData.mk "G" "d" "B" []] := by
  refine ⟨by decide, processFile_multi_platform _ _ (by decide), by decide⟩

/-- C9 counterexample: a processable DAT base name on which parseFilename
returns the empty platform, and a decoded JSON document with no signature
descriptors for which ProcessFile returns a GameData with empty Platform. -/
theorem platform_nonempty_counterexample :
    parseFilename ".dat".data = [] ∧
    (ProcessFile (GameFile.mk 0 "" "G" [] []) "g.json").map GameData.Platform = [""] := by
  exact ⟨by decide, by decide⟩

/-- C9 amended: platform fields are non-empty whenever the inputs supply
non-blank platform information: parseFilename is non-empty whenever the
trimmed fragment it returns is non-empty (before the first parenthesis,
or the name without a ".dat" suffix), and every GameData returned by
ProcessFile has a non-empty Platform provided the first signature
descriptor carries a non-empty platform. -/
theorem platform_nonempty_amended :
    (∀ l : List Char, '(' ∈ l →
      trimSpaceL (l.takeWhile (fun c => decide (c ≠ '('))) ≠ [] → parseFilename l ≠ []) ∧
    (∀ l : List Char, '(' ∉ l →
      trimSpaceL (trimSuffixL l ['.', 'd', 'a', 't']) ≠ [] → parseFilename l ≠ []) ∧
    (∀ (data : GameFile) (fn : String), firstSigPlatform data ≠ "" →
      ∀ g ∈ ProcessFile data fn, g.Platform ≠ "") := by
  refine ⟨?_, ?_, ?_⟩
  · intro l hin hne
    rw [parseFilename_eq_amendedAux]
    unfold parseFilenameAmended
    rw [if_pos hin]
    exact hne
  · intro l hnin hne
    rw [parseFilename_eq_amendedAux]
    unfold parseFilenameAmended
    rw [if_neg hnin]
    exact hne
  · intro data fn hfs g hg
    by_cases hlen : (platformsOf data).length > 1
    · rw [processFile_eq_multi data fn hlen] at hg
      obtain ⟨p, hp, hgp⟩ := List.mem_map.1 hg
      rw [← hgp]
      exact platformsOf_ne_empty data p hp
    · rw [processFile_eq_single data fn hlen] at hg
      have h := List.mem_singleton.1 hg
      rw [h]
      exact hfs

/-- C9 amended witness: a parenthesised and a plain DAT name with
non-blank platform fragments, and a document whose first signature names
platform A. -/
theorem platform_nonempty_amended_witness :
    ('(' ∈ "NES (USA).dat".data ∧ parseFilename "NES (USA).dat".data ≠ []) ∧
    ('(' ∉ "SNES.dat".data ∧ parseFilename "SNES.dat".data ≠ []) ∧
    (firstSigPlatform (GameFile.mk 0 "" "G" [SigObj.mk "" "" "A"] []) ≠ "" ∧
      ∀ g ∈ ProcessFile (GameFile.mk 0 "" "G" [SigObj.mk "" "" "A"] []) "g.json",
        g.Platform ≠ "") := by
  refine ⟨⟨by decide, ?_⟩, ⟨by decide, ?_⟩, ⟨by decide, ?_⟩⟩
  · exact platform_nonempty_amended.1 _ (by decide) (by decide)
  · exact platform_nonempty_amended.2.1 _ (by decide) (by decide)
  · exact platform_nonempty_amended.2.2 _ "g.json" (by decide)

/-! ## C4 and C6: parseDAT capture properties -/

/-- A successful findSome? comes from some element of the list. -/
theorem findSome?_eq_some_exists {α β : Type} {f : α → Option β} :
    ∀ {l : List α} {b : β}, l.findSome? f = some b → ∃ a ∈ l, f a = some b := by
  intro l
  induction l with
  | nil => intro b h; simp [List.findSome?_nil] at h
  | cons x xs ih =>
    intro b h
    cases hx : f x with
    | some v =>
      have h' : some v = some b := by rw [List.findSome?_cons, hx] at h; exact h
      exact ⟨x, List.mem_cons_self _ _, hx.trans h'⟩
    | none =>
      have h' : xs.findSome? f = some b := by rw [List.findSome?_cons, hx] at h; exact h
      obtain ⟨a, ha, hfa⟩ := ih h'
      exact ⟨a, List.mem_cons_of_mem _ ha, hfa⟩

/-- A prefix no longer than the maximal run satisfying the class lies
inside that run. -/
theorem take_takeWhile_all {α : Type} (p : α → Bool) :
    ∀ (l : List α) (k : Nat), k ≤ (l.takeWhile p).length → (l.take k).all p = true := by
  intro l
  induction l with
  | nil => intro k _; simp
  | cons x xs ih =>
    intro k h
    cases k with
    | zero => simp
    | succ k' =>
      by_cases hx : p x = true
      · rw [List.takeWhile_cons_of_pos hx] at h
        simp only [List.length_cons, Nat.succ_le_succ_iff] at h
        rw [List.take_succ_cons, List.all_cons, ih k' h, hx]
        rfl
      · rw [List.takeWhile_cons_of_neg hx] at h
        simp at h

theorem mem_candDown1 {m k : Nat} (h : k ∈ candDown1 m) : 1 ≤ k ∧ k ≤ m := by
  unfold candDown1 at h
  rw [List.mem_reverse, List.mem_map] at h
  obtain ⟨j, hj, rfl⟩ := h
  rw [List.mem_range] at hj
  omega

theorem length_takeWhile_le' {α : Type} (p : α → Bool) :
    ∀ l : List α, (l.takeWhile p).length ≤ l.length := by
  intro l
  induction l with
  | nil => simp
  | cons x xs ih =>
    by_cases hx : p x = true
    · rw [List.takeWhile_cons_of_pos hx]
      simpa using ih
    · rw [List.takeWhile_cons_of_neg hx]
      simp

/-- Every capture row a successful token match produces satisfies the
shape invariant: captured plus runs are non-empty and class-respecting,
captured fixed repetitions have the exact length and respect the class. -/
theorem mtoks_capsOK :
    ∀ (ts : List Tok) (s : List Char) (cs : List (List Char)) (r : List Char),
      mtoks ts s = some (cs, r) → capsOKb ts cs = true := by
  intro ts
  induction ts with
  | nil =>
    intro s cs r h
    have h' : some (([] : List (List Char)), s) = some (cs, r) := h
    injection h' with h''
    injection h'' with hcs hr
    rw [← hcs]
    rfl
  | cons t ts ih =>
    intro s cs r h
    cases t with
    | lit l =>
      by_cases hp : l.isPrefixOf s = true
      · have h' : mtoks ts (s.drop l.length) = some (cs, r) := by
          have heq : mtoks (Tok.lit l :: ts) s = mtoks ts (s.drop l.length) := by
            simp [mtoks, hp]
          rw [heq] at h
          exact h
        have hok := ih _ _ _ h'
        simpa [capsOKb] using hok
      · have heq : mtoks (Tok.lit l :: ts) s = none := by
          simp [mtoks, hp]
        rw [heq] at h
        exact Option.noConfusion h
    | starG p =>
      have h' : (candDown0 (s.takeWhile p).length).findSome?
          (fun k => mtoks ts (s.drop k)) = some (cs, r) := h
      obtain ⟨k, _, hkeq⟩ := findSome?_eq_some_exists h'
      have hok := ih _ _ _ hkeq
      simpa [capsOKb] using hok
    | starL p =>
      have h' : (candUp0 (s.takeWhile p).length).findSome?
          (fun k => mtoks ts (s.drop k)) = some (cs, r) := h
      obtain ⟨k, _, hkeq⟩ := findSome?_eq_some_exists h'
      have hok := ih _ _ _ hkeq
      simpa [capsOKb] using hok
    | plusG p cap =>
      have h' : (candDown1 (s.takeWhile p).length).findSome?
          (fun k => (mtoks ts (s.drop k)).map
            (fun pr => (if cap then s.take k :: pr.1 else pr.1, pr.2))) = some (cs, r) := h
      obtain ⟨k, hk, hkeq⟩ := findSome?_eq_some_exists h'
      obtain ⟨hk1, hk2⟩ := mem_candDown1 hk
      cases hm : mtoks ts (s.drop k) with
      | none => rw [hm] at hkeq; exact Option.noConfusion hkeq
      | some pr =>
        rw [hm] at hkeq
        simp only [Option.map_some'] at hkeq
        injection hkeq with hpair
        injection hpair with hcs hr
        rw [← hcs]
        have hok := ih _ _ _ hm
        cases cap with
        | false =>
          simpa [capsOKb] using hok
        | true =>
          have hne : (s.take k).isEmpty = false := by
            rw [List.isEmpty_eq_false]
            intro hnil
            have : (s.take k).length = 0 := by rw [hnil]; rfl
            rw [List.length_take] at this
            have hsk : (s.takeWhile p).length ≤ s.length :=
              length_takeWhile_le' p s
            omega
          have hall : (s.take k).all p = true := take_takeWhile_all p s k hk2
          simp [capsOKb, hne, hall, hok]
    | repN p n =>
      by_cases hc : (s.take n).length = n ∧ (s.take n).all p = true
      · have heq : mtoks (Tok.repN p n :: ts) s = (mtoks ts (s.drop n)).map
            (fun pr => (s.take n :: pr.1, pr.2)) := by
          simp [mtoks, hc.1, hc.2]
        rw [heq] at h
        cases hm : mtoks ts (s.drop n) with
        | none => rw [hm] at h; exact Option.noConfusion h
        | some pr =>
          rw [hm] at h
          simp only [Option.map_some'] at h
          injection h with hpair
          injection hpair with hcs hr
          rw [← hcs]
          have hok := ih _ _ _ hm
          simp [capsOKb, hc.1, hc.2, hok]
      · have heq : mtoks (Tok.repN p n :: ts) s = none := by
          simp only [mtoks]
          rw [if_neg]
          intro hcon
          exact hc ⟨hcon.1, hcon.2⟩
        rw [heq] at h
        exact Option.noConfusion h

/-- The leftmost match inherits the capture shape invariant. -/
theorem findFirst_capsOK (toks : List Tok) :
    ∀ (s : List Char) (cs : List (List Char)) (r : List Char),
      findFirst toks s = some (cs, r) → capsOKb toks cs = true := by
  intro s
  induction s with
  | nil =>
    intro cs r h
    exact mtoks_capsOK toks [] cs r h
  | cons c rest ih =>
    intro cs r h
    cases hm : mtoks toks (c :: rest) with
    | some pr =>
      have h' : some pr = some (cs, r) := by
        have heq : findFirst toks (c :: rest) = some pr := by
          simp [findFirst, hm]
        rw [heq] at h
        exact h
      injection h' with h''
      exact mtoks_capsOK toks (c :: rest) cs r (by rw [hm, h''])
    | none =>
      have h' : findFirst toks rest = some (cs, r) := by
        have heq : findFirst toks (c :: rest) = findFirst toks rest := by
          simp [findFirst, hm]
        rw [heq] at h
        exact h
      exact ih cs r h'

/-- Every capture row in the match list satisfies the shape invariant. -/
theorem findAllAux_capsOK (toks : List Tok) :
    ∀ (fuel : Nat) (s : List Char) (cs : List (List Char)),
      cs ∈ findAllAux toks fuel s → capsOKb toks cs = true := by
  intro fuel
  induction fuel with
  | zero => intro s cs h; simp [findAllAux] at h
  | succ f ih =>
    intro s cs h
    cases hf : findFirst toks s with
    | none =>
      have heq : findAllAux toks (f + 1) s = [] := by
        simp [findAllAux, hf]
      rw [heq] at h
      exact absurd h (List.not_mem_nil cs)
    | some pr =>
      have heq : findAllAux toks (f + 1) s = pr.1 :: findAllAux toks f pr.2 := by
        simp [findAllAux, hf]
      rw [heq] at h
      rcases List.mem_cons.1 h with hh | hh
      · rw [hh]
        exact findFirst_capsOK toks s pr.1 pr.2 (by rw [hf])
      · exact ih pr.2 cs hh

theorem findAll_capsOK (toks : List Tok) (s : List Char) (cs : List (List Char))
    (h : cs ∈ findAll toks s) : capsOKb toks cs = true :=
  findAllAux_capsOK toks (s.length + 1) s cs h

/-- The capture rows of the filename-carrying DAT pattern: a non-empty
quote-free game name, a non-empty space-free filename token, and exactly
forty hexadecimal characters. -/
theorem capsOKb_patA_shape (cs : List (List Char)) (h : capsOKb patA cs = true) :
    ∃ g1 g2 g3, cs = [g1, g2, g3] ∧ g1 ≠ [] ∧ g1.all notQuote = true ∧
      g2 ≠ [] ∧ g2.all notSp = true ∧ g3.length = 40 ∧ g3.all isHexC = true := by
  cases cs with
  | nil => simp [patA, capsOKb] at h
  | cons g1 cs1 =>
    cases cs1 with
    | nil => simp [patA, capsOKb] at h
    | cons g2 cs2 =>
      cases cs2 with
      | nil => simp [patA, capsOKb] at h
      | cons g3 cs3 =>
        cases cs3 with
        | cons g4 cs4 => simp [patA, capsOKb] at h
        | nil =>
          have h' : ((!g1.isEmpty && g1.all notQuote) &&
              ((!g2.isEmpty && g2.all notSp) &&
                (((g3.length == 40) && g3.all isHexC) && true))) = true := h
          simp only [Bool.and_eq_true, Bool.and_true, Bool.not_eq_true',
            List.isEmpty_eq_false, beq_iff_eq] at h'
          exact ⟨g1, g2, g3, rfl, h'.1.1, h'.1.2, h'.2.1.1, h'.2.1.2,
            h'.2.2.1, h'.2.2.2⟩

/-- The capture rows of the filename-less DAT pattern: a non-empty
quote-free game name and exactly forty hexadecimal characters. -/
theorem capsOKb_patB_shape (cs : List (List Char)) (h : capsOKb patB cs = true) :
    ∃ g1 g2, cs = [g1, g2] ∧ g1 ≠ [] ∧ g1.all notQuote = true ∧
      g2.length = 40 ∧ g2.all isHexC = true := by
  cases cs with
  | nil => simp [patB, capsOKb] at h
  | cons g1 cs1 =>
    cases cs1 with
    | nil => simp [patB, capsOKb] at h
    | cons g2 cs2 =>
      cases cs2 with
      | cons g3 cs3 => simp [patB, capsOKb] at h
      | nil =>
        have h' : ((!g1.isEmpty && g1.all notQuote) &&
            (((g2.length == 40) && g2.all isHexC) && true)) = true := h
        simp only [Bool.and_eq_true, Bool.and_true, Bool.not_eq_true',
          List.isEmpty_eq_false, beq_iff_eq] at h'
        exact ⟨g1, g2, rfl, h'.1.1, h'.1.2, h'.2.1, h'.2.2⟩

/-- filterMap collapses to map when the function succeeds everywhere. -/
theorem filterMap_eq_map_of_some {α β : Type} (f : α → Option β) (g : α → β) :
    ∀ l : List α, (∀ a ∈ l, f a = some (g a)) → l.filterMap f = l.map g := by
  intro l
  induction l with
  | nil => intro _; rfl
  | cons x xs ih =>
    intro hl
    have hx := hl x (List.mem_cons_self _ _)
    rw [List.filterMap_cons, hx]
    show g x :: xs.filterMap f = (x :: xs).map g
    rw [List.map_cons, ih (fun a ha => hl a (List.mem_cons_of_mem _ ha))]

/-- parseDAT builds exactly one record per pattern match, in match order. -/
theorem parseDAT_eq_map (content platform : String) :
    parseDAT content platform = (findAll patA content.data).map (buildA platform) := by
  unfold parseDAT
  apply filterMap_eq_map_of_some
  intro caps hcaps
  obtain ⟨g1, g2, g3, hshape, _⟩ := capsOKb_patA_shape caps (findAll_capsOK _ _ _ hcaps)
  rw [hshape]
  rfl

/-- C4: for every matched DAT game block whose captured ROM filename
token begins with a double quote, parseDAT produces a record at the same
match position whose filename is empty while the name (non-empty), the
given platform and the lowercased forty-character hash are populated. -/
theorem parseDAT_quoted_filename_blanked (content platform : String) (i : Nat)
    (caps : List (List Char)) (hc : (findAll patA content.data)[i]? = some caps)
    (hq : (caps.getD 1 []).head? = some '"') :
    ∃ g : Game, (parseDAT content platform)[i]? = some g ∧
      g.Filename = "" ∧ g.Name = String.mk (caps.getD 0 []) ∧ g.Name ≠ "" ∧
      g.Platform = platform ∧ g.Hash = asciiLowerS (String.mk (caps.getD 2 [])) ∧
      g.Hash.length = 40 := by
  have hmem : caps ∈ findAll patA content.data := List.getElem?_mem hc
  obtain ⟨g1, g2, g3, hshape, hg1ne, _, _, _, hg3len, _⟩ :=
    capsOKb_patA_shape caps (findAll_capsOK _ _ _ hmem)
  subst hshape
  refine ⟨buildA platform [g1, g2, g3], ?_, ?_, rfl, ?_, rfl, rfl, ?_⟩
  · rw [parseDAT_eq_map, List.getElem?_map, hc]
    rfl
  · have hq' : g2.head? = some '"' := hq
    show (if g2.head? = some '"' then "" else String.mk g2) = ""
    rw [if_pos hq']
  · intro hcontra
    exact hg1ne (congrArg String.data hcontra)
  · show (List.map asciiLowerC g3).length = 40
    rw [List.length_map]
    exact hg3len

/-- C4 witness: a block whose rom name token is a quoted string yields a
record with an empty filename and populated name, platform and hash. -/
theorem parseDAT_quoted_filename_blanked_witness :
    (findAll patA ("game ( name \"A\" rom ( name \"bc\" sha1 abcdef0123456789abcdef0123456789abcdef01 ) )" : String).data)[0]? =
      some ["A".data, "\"bc\"".data, "abcdef0123456789abcdef0123456789abcdef01".data] ∧
    ((["A".data, "\"bc\"".data,
        "abcdef0123456789abcdef0123456789abcdef01".data].getD 1 []).head? = some '"') ∧
    (∃ g : Game,
      (parseDAT "game ( name \"A\" rom ( name \"bc\" sha1 abcdef0123456789abcdef0123456789abcdef01 ) )" "P")[0]? =
        some g ∧
      g.Filename = "" ∧
      g.Name = String.mk (["A".data, "\"bc\"".data,
        "abcdef0123456789abcdef0123456789abcdef01".data].getD 0 []) ∧
      g.Name ≠ "" ∧ g.Platform = "P" ∧
      g.Hash = asciiLowerS (String.mk (["A".data, "\"bc\"".data,
        "abcdef0123456789abcdef0123456789abcdef01".data].getD 2 [])) ∧
      g.Hash.length = 40) := by
  refine ⟨by decide, by decide, ?_⟩
  exact parseDAT_quoted_filename_blanked _ "P" 0 _ (by decide) (by decide)

/-! ## C6: hashes are lowercase hexadecimal everywhere -/

theorem hexDigit_lower (k : Nat) (h : k < 16) : isLowerHexC (hexDigit k) = true := by
  interval_cases k <;> decide

/-- Every character of a SHA-1 digest rendered by the %x verb is a
lowercase hexadecimal character. -/
theorem sha1Hex_lower (B : List Nat) : (sha1Hex B).all isLowerHexC = true := by
  rw [List.all_eq_true]
  intro c hc
  unfold sha1Hex at hc
  rw [List.mem_flatten] at hc
  obtain ⟨l, hl, hcl⟩ := hc
  rw [List.mem_map] at hl
  obtain ⟨b, _, rfl⟩ := hl
  unfold byteHex at hcl
  rcases List.mem_cons.1 hcl with h1 | h1
  · rw [h1]
    exact hexDigit_lower _ (Nat.mod_lt _ (by omega))
  · rcases List.mem_cons.1 h1 with h2 | h2
    · rw [h2]
      exact hexDigit_lower _ (Nat.mod_lt _ (by omega))
    · exact absurd h2 (List.not_mem_nil c)

/-- Lowercasing a hexadecimal string yields a lowercase hexadecimal
string. -/
theorem all_lower_of_all_hex (w : List Char) (h : w.all isHexC = true) :
    (asciiLowerL w).all isLowerHexC = true := by
  rw [List.all_eq_true] at h ⊢
  intro c hc
  unfold asciiLowerL at hc
  rw [List.mem_map] at hc
  obtain ⟨c0, hc0, rfl⟩ := hc
  exact isLowerHexC_asciiLowerC c0 (h c0 hc0)

/-- Any digest CalculateFileHash returns is the rendered SHA-1 of some
byte stream it consumed. -/
theorem calculateFileHash_ok_digest (fs : FS) (p : List Char) (d : String)
    (h : CalculateFileHash fs p = Except.ok d) : ∃ B, d = sha1HexS B := by
  unfold CalculateFileHash at h
  by_cases hz : asciiLowerL (extL p) = zipExtL
  · rw [if_pos hz] at h
    unfold calculateZipHash at h
    cases hzo : fs.openZip p with
    | none => simp only [hzo] at h; exact Except.noConfusion h
    | some entries =>
      cases entries with
      | nil => simp only [hzo] at h; exact Except.noConfusion h
      | cons e es =>
        cases he : e.data with
        | none => simp only [hzo, he] at h; exact Except.noConfusion h
        | some B =>
          simp only [hzo, he, Except.ok.injEq] at h
          exact ⟨B, h.symm⟩
  · rw [if_neg hz] at h
    cases hr : fs.readFile p with
    | none => simp only [hr] at h; exact Except.noConfusion h
    | some B =>
      simp only [hr, Except.ok.injEq] at h
      exact ⟨B, h.symm⟩

/-- C6: in both parseDAT variants every record's hash is the lowercased
form of the matched forty-character hexadecimal token (hence lowercase
hex), and every digest CalculateFileHash returns successfully is a
lowercase hexadecimal string. -/
theorem hash_lowercase_invariant :
    (∀ content platform : String, ∀ g ∈ parseDAT content platform,
      ∃ w : List Char, w.length = 40 ∧ w.all isHexC = true ∧
        g.Hash = asciiLowerS (String.mk w) ∧ IsLowerHexS g.Hash) ∧
    (∀ content platform : String, ∀ g ∈ parseDAT2 content platform,
      ∃ w : List Char, w.length = 40 ∧ w.all isHexC = true ∧
        g.Hash = asciiLowerS (String.mk w) ∧ IsLowerHexS g.Hash) ∧
    (∀ (fs : FS) (p : List Char) (d : String),
      CalculateFileHash fs p = Except.ok d → IsLowerHexS d) := by
  refine ⟨?_, ?_, ?_⟩
  · intro content platform g hg
    unfold parseDAT at hg
    obtain ⟨caps, hcm, hmk⟩ := List.mem_filterMap.1 hg
    obtain ⟨g1, g2, g3, hshape, _, _, _, _, hg3len, hg3hex⟩ :=
      capsOKb_patA_shape caps (findAll_capsOK _ _ _ hcm)
    subst hshape
    have hmk' : some (buildA platform [g1, g2, g3]) = some g := hmk
    injection hmk' with hg'
    refine ⟨g3, hg3len, hg3hex, ?_, ?_⟩
    · rw [← hg']
      rfl
    · rw [← hg']
      show (asciiLowerL g3).all isLowerHexC = true
      exact all_lower_of_all_hex g3 hg3hex
  · intro content platform g hg
    unfold parseDAT2 at hg
    obtain ⟨caps, hcm, hmk⟩ := List.mem_filterMap.1 hg
    obtain ⟨g1, g2, hshape, hg1ne, _, hg2len, hg2hex⟩ :=
      capsOKb_patB_shape caps (findAll_capsOK _ _ _ hcm)
    subst hshape
    by_cases hcond : String.mk g1 ≠ "" ∧ String.mk g2 ≠ ""
    · have heq : mkGameB platform [g1, g2] =
          some (Game.mk (String.mk g1) "" platform (asciiLowerS (String.mk g2))) := by
        show (if String.mk g1 ≠ "" ∧ String.mk g2 ≠ ""
            then some (Game.mk (String.mk g1) "" platform (asciiLowerS (String.mk g2)))
            else none) =
          some (Game.mk (String.mk g1) "" platform (asciiLowerS (String.mk g2)))
        rw [if_pos hcond]
      rw [heq] at hmk
      injection hmk with hg'
      refine ⟨g2, hg2len, hg2hex, ?_, ?_⟩
      · rw [← hg']
      · rw [← hg']
        show (asciiLowerL g2).all isLowerHexC = true
        exact all_lower_of_all_hex g2 hg2hex
    · have heq : mkGameB platform [g1, g2] = none := by
        show (if String.mk g1 ≠ "" ∧ String.mk g2 ≠ ""
            then some (Game.mk (String.mk g1) "" platform (asciiLowerS (String.mk g2)))
            else none) = none
        rw [if_neg hcond]
      rw [heq] at hmk
      exact Option.noConfusion hmk
  · intro fs p d h
    obtain ⟨B, rfl⟩ := calculateFileHash_ok_digest fs p d h
    show (sha1Hex B).all isLowerHexC = true
    exact sha1Hex_lower B

/-- C6 witness: the spec's worked DAT example (uppercase digest in the
source text) in both grammar variants, and a concrete plain-file run. -/
theorem hash_lowercase_invariant_witness :
    (∃ w : List Char, w.length = 40 ∧ w.all isHexC = true ∧
      (Game.mk "Super Game" "game.bin" "NES"
        "deadbeefdeadbeefdeadbeefdeadbeefdeadbeef").Hash =
        asciiLowerS (String.mk w) ∧
      IsLowerHexS (Game.mk "Super Game" "game.bin" "NES"
        "deadbeefdeadbeefdeadbeefdeadbeefdeadbeef").Hash) ∧
    (∃ w : List Char, w.length = 40 ∧ w.all isHexC = true ∧
      (Game.mk "Super Game" "" "NES"
        "deadbeefdeadbeefdeadbeefdeadbeefdeadbeef").Hash =
        asciiLowerS (String.mk w) ∧
      IsLowerHexS (Game.mk "Super Game" "" "NES"
        "deadbeefdeadbeefdeadbeefdeadbeefdeadbeef").Hash) ∧
    IsLowerHexS (sha1HexS [97, 98, 99]) := by
  refine ⟨?_, ?_, ?_⟩
  · exact hash_lowercase_invariant.1
      "game ( name \"Super Game\" rom ( name game.bin sha1 DEADBEEFDEADBEEFDEADBEEFDEADBEEFDEADBEEF ) )"
      "NES" _ (by decide)
  · exact hash_lowercase_invariant.2.1
      "game ( name \"Super Game\" rom ( name game.bin sha1 DEADBEEFDEADBEEFDEADBEEFDEADBEEFDEADBEEF ) )"
      "NES" _ (by decide)
  · exact hash_lowercase_invariant.2.2
      (FS.mk (fun _ => some [97, 98, 99]) (fun _ => none)) "a.bin".data _ (by decide)
